import Mathlib

/-!
# A shallow embedding of the `awoo` scheduling library

This file models the data types and operations of the `awoo` crate
(`src/lib.rs`, `src/scheduler.rs`, `src/window.rs`, `src/time/simple.rs`)
and proves properties of them.

Modelling conventions:

* The time domain `T` is taken to be a linearly ordered type.  The Rust code
  is generic over `T : PartialOrd` and collapses an incomparable
  `partial_cmp` result to `Ordering::Less`; on a linear order `partial_cmp`
  is total, so that fallback branch is dead and `pcmp` below is the faithful
  specialisation.
* Rust closures (`Rc<FnMut(T) -> Option<A>>`, `Box<FnMut(&A, &A) -> A>`,
  window actions) are modelled as Lean functions; their internal mutable
  captures are outside the model, matching the spec's view of behaviors as
  time-indexed producers of optional values.
* `Vec` becomes `List`; `slice::binary_search_by` is translated below as
  `binarySearchLoop` / `binarySearchBy`, following the standard-library
  implementation used by the crate (halving loop on `(base, size)`).
* `Vec::sort_by` is a stable sort; it is modelled by `List.mergeSort`, which
  is also stable, with the boolean order `cmp(a, b) ≠ Greater`.  Stable
  sorts with the same total preorder produce identical outputs, so the model
  computes the same list as the Rust code.
* Fallible constructors (`guard!`) return `Option`, as in the source.
-/

namespace Awoo

/-- A behavior gives values of type `A` varying over time `T`
(`Behavior` in `src/lib.rs`).  The wrapped closure is a function
`T → Option A`; returning `none` means the behavior is disabled. -/
structure Behavior (T A : Type) where
  behavior : T → Option A

/-- Rust `Behavior::react`: invoke the wrapped function. -/
def Behavior.react {T A : Type} (b : Behavior T A) (t : T) : Option A :=
  b.behavior t

/-- Blend two `A` to form a new one (`Blend` in `src/lib.rs`). -/
structure Blend (A : Type) where
  blend_f : A → A → A

/-- Rust `Blend::blend`: apply the blending function. -/
def Blend.blend {A : Type} (bl : Blend A) (a b : A) : A :=
  bl.blend_f a b

/-- A cut in a behavior at given times (`Cut` in `src/lib.rs`). -/
structure Cut (T A : Type) where
  behavior : Behavior T A
  start_t : T
  stop_t : T
  blending : Option (Blend A)

/-- Rust `Cut::new`: fails (via `guard!`) when `start_t > stop_t`; the blending
field defaults to `None`. -/
def Cut.new {T A : Type} [LinearOrder T] (start_t stop_t : T) (behavior : Behavior T A) :
    Option (Cut T A) :=
  if start_t ≤ stop_t then some ⟨behavior, start_t, stop_t, none⟩ else none

/-- Rust `Cut::dur`: `stop_t - start_t`. -/
def Cut.dur {T A : Type} [Sub T] (c : Cut T A) : T :=
  c.stop_t - c.start_t

/-- Rust `Cut::react`: delegate to the underlying behavior. -/
def Cut.react {T A : Type} (c : Cut T A) (t : T) : Option A :=
  c.behavior.react t

/-- Rust `Cut::react_blend`: fold one more cut `b` into an accumulated optional
value, using `b`'s blending function when present. -/
def Cut.react_blend {T A : Type} (value : Option A) (b : Cut T A) (t : T) : Option A :=
  match value with
  | none => b.react t
  | some a =>
    match b.blending with
    | none => some a
    | some blending =>
      match b.react t with
      | some b_result => some (blending.blend a b_result)
      | none => some a

/-- Model of `a.partial_cmp(&b).unwrap_or(Ordering::Less)` on a linear
order, where `partial_cmp` never returns `None`. -/
def pcmp {T : Type} [LinearOrder T] (a b : T) : Ordering :=
  if a < b then .lt else if a = b then .eq else .gt

theorem pcmp_lt_iff {T : Type} [LinearOrder T] {a b : T} : pcmp a b = .lt ↔ a < b := by
  unfold pcmp
  split_ifs with h1 h2
  · simpa using h1
  · simpa using h1
  · simpa using h1

theorem pcmp_eq_iff {T : Type} [LinearOrder T] {a b : T} : pcmp a b = .eq ↔ a = b := by
  unfold pcmp
  split_ifs with h1 h2
  · simpa using ne_of_lt h1
  · simpa using h2
  · simpa using h2

theorem pcmp_gt_iff {T : Type} [LinearOrder T] {a b : T} : pcmp a b = .gt ↔ b < a := by
  unfold pcmp
  split_ifs with h1 h2
  · simpa using le_of_lt h1
  · simpa using le_of_eq h2
  · simpa using lt_of_le_of_ne (not_lt.mp h1) fun h => h2 h.symm

/-- A collection of cuts, sorted by start time (`Track` in `src/lib.rs`). -/
structure Track (T A : Type) where
  cuts : List (Cut T A)

/-- The boolean order underlying `Track::new`'s `sort_by` comparator: `a`
may precede `b` exactly when the comparator does not answer `Greater`. -/
def startLE {T A : Type} [LinearOrder T] (a b : Cut T A) : Bool :=
  pcmp a.start_t b.start_t ≠ .gt

/-- The sort performed by `Track::new`:
`cuts.sort_by(|a, b| a.start_t.partial_cmp(&b.start_t).unwrap_or(Less))`.
Rust's `sort_by` is stable; `List.mergeSort` is stable with the boolean
relation `cmp(a, b) ≠ Greater`, i.e. `a.start_t ≤ b.start_t`. -/
def sortByStart {T A : Type} [LinearOrder T] (cuts : List (Cut T A)) : List (Cut T A) :=
  cuts.mergeSort startLE

/-- The overlap test of `Track::new`:
`cuts.iter().zip(cuts.iter().skip(1)).any(|(a, b)| b.start_t < a.stop_t)`. -/
def overlapping {T A : Type} [LinearOrder T] (cuts : List (Cut T A)) : Bool :=
  (cuts.zip (cuts.drop 1)).any fun ab => ab.2.start_t < ab.1.stop_t

/-- Rust `Track::new`: sort by `start_t`, then fail (via `guard!`) when some
adjacent pair in sorted order overlaps. -/
def Track.new {T A : Type} [LinearOrder T] (cuts : List (Cut T A)) : Option (Track T A) :=
  if overlapping (sortByStart cuts) then none else some ⟨sortByStart cuts⟩

/-- The three-way comparator used by `Track::active`'s binary search:
matched (`eq`) when `start_t = t`, or when `start_t < t` and `t ≤ stop_t`. -/
def cutCmp {T A : Type} [LinearOrder T] (t : T) (cut : Cut T A) : Ordering :=
  match pcmp cut.start_t t with
  | .eq => .eq
  | .gt => .gt
  | .lt =>
    match pcmp t cut.stop_t with
    | .lt => .eq
    | .eq => .eq
    | .gt => .lt

/-- The halving loop of `slice::binary_search_by`
(`while size > 1 { let half = size / 2; let mid = base + half; ... }`).
The Rust code indexes with `get_unchecked`; the default `d` stands in for
that access and is immaterial whenever `base + size ≤ s.length`, which the
correctness lemmas below assume. -/
def binarySearchLoop {α : Type} (f : α → Ordering) (s : List α) (d : α)
    (base size : Nat) : Nat :=
  if h : 1 < size then
    binarySearchLoop f s d
      (if f (s.getD (base + size / 2) d) = .gt then base else base + size / 2)
      (size - size / 2)
  else base
termination_by size
decreasing_by omega

/-- Rust `slice::binary_search_by` followed by `.ok()`: run the halving loop,
then accept the final index when the comparator answers `eq` there. -/
def binarySearchBy {α : Type} (f : α → Ordering) (s : List α) (d : α) : Option Nat :=
  if s.length = 0 then none
  else if f (s.getD (binarySearchLoop f s d 0 s.length) d) = .eq then
    some (binarySearchLoop f s d 0 s.length)
  else none

/-- Rust `Track::active`: binary-search the sorted cuts with `cutCmp` and return
the found cut, if any.  The head of the list serves as the (never consulted)
default element for the in-bounds accesses. -/
def Track.active {T A : Type} [LinearOrder T] (tr : Track T A) (t : T) : Option (Cut T A) :=
  match tr.cuts with
  | [] => none
  | c :: _ => (binarySearchBy (cutCmp t) tr.cuts c).bind fun x => tr.cuts.get? x

/-- The naive reference lookup used by the specification: linearly scan the
cuts for one whose interval contains `t`, with both bounds inclusive. -/
def naiveActive {T A : Type} [LinearOrder T] (tr : Track T A) (t : T) : Option (Cut T A) :=
  tr.cuts.find? fun c => c.start_t ≤ t ∧ t ≤ c.stop_t

/-- Interval membership with both ends inclusive, as matched by `cutCmp`. -/
def Contains {T A : Type} [LinearOrder T] (c : Cut T A) (t : T) : Prop :=
  c.start_t ≤ t ∧ t ≤ c.stop_t

instance {T A : Type} [LinearOrder T] (c : Cut T A) (t : T) : Decidable (Contains c t) := by
  unfold Contains; infer_instance

/-! ## Correctness of the binary search

The Rust `binary_search_by` call inside `Track::active` is correct whenever
the comparator answers `lt* eq* gt*` along the list.  We capture that shape
with a numeric rank and prove that the halving loop lands on an `eq`
position whenever one exists. -/

theorem getD_of_lt {α : Type} (s : List α) (d : α) {i : Nat} (h : i < s.length) :
    s.getD i d = s.get ⟨i, h⟩ := by
  simp [List.getD_eq_getElem?_getD, List.getElem?_eq_getElem h]

/-- Numeric rank of a comparator answer, used to state monotonicity. -/
def rank : Ordering → Nat
  | .lt => 0
  | .eq => 1
  | .gt => 2

/-- The comparator classifies the list as a block of `lt`, then `eq`,
then `gt`: its rank is monotone in the index. -/
def CmpMonotone {α : Type} (f : α → Ordering) (s : List α) : Prop :=
  ∀ i j : Fin s.length, (i : Nat) ≤ (j : Nat) → rank (f (s.get i)) ≤ rank (f (s.get j))

theorem rank_eq_two {o : Ordering} (h : 2 ≤ rank o) : o = .gt := by
  cases o <;> simp [rank] at h ⊢

theorem rank_eq_one {o : Ordering} (h1 : 1 ≤ rank o) (h2 : o ≠ .gt) : o = .eq := by
  cases o <;> simp [rank] at h1 h2 ⊢

/-- The halving loop keeps its result inside `[base, base + size)`. -/
theorem binarySearchLoop_bounds {α : Type} (f : α → Ordering) (s : List α) (d : α) :
    ∀ size base, 1 ≤ size →
      base ≤ binarySearchLoop f s d base size ∧
      binarySearchLoop f s d base size < base + size := by
  intro size
  induction size using Nat.strong_induction_on with
  | _ size ih =>
    intro base hsz
    rw [binarySearchLoop]
    split
    case isTrue h =>
      by_cases hc : f (s.getD (base + size / 2) d) = .gt
      · rw [if_pos hc]
        have := ih (size - size / 2) (by omega) base (by omega)
        omega
      · rw [if_neg hc]
        have := ih (size - size / 2) (by omega) (base + size / 2) (by omega)
        omega
    case isFalse h =>
      omega

/-- If the comparator is monotone and some position in the searched range
answers `eq`, the halving loop stops at a position answering `eq`. -/
theorem binarySearchLoop_finds {α : Type} (f : α → Ordering) (s : List α) (d : α)
    (hmono : CmpMonotone f s) :
    ∀ size base, 1 ≤ size → base + size ≤ s.length →
      (∃ j : Fin s.length, base ≤ (j : Nat) ∧ (j : Nat) < base + size ∧ f (s.get j) = .eq) →
      f (s.getD (binarySearchLoop f s d base size) d) = .eq := by
  intro size
  induction size using Nat.strong_induction_on with
  | _ size ih =>
    intro base hsz hlen hex
    rw [binarySearchLoop]
    split
    case isTrue h =>
      have hmid : base + size / 2 < s.length := by omega
      by_cases hc : f (s.getD (base + size / 2) d) = .gt
      · rw [if_pos hc]
        obtain ⟨j, hj1, hj2, hj3⟩ := hex
        have hjmid : (j : Nat) < base + size / 2 := by
          by_contra hge
          have hr := hmono ⟨base + size / 2, hmid⟩ j
            (by show base + size / 2 ≤ (j : Nat); omega)
          rw [← getD_of_lt s d hmid, hc, hj3] at hr
          simp [rank] at hr
        exact ih (size - size / 2) (by omega) base (by omega) (by omega)
          ⟨j, hj1, by omega, hj3⟩
      · rw [if_neg hc]
        obtain ⟨j, hj1, hj2, hj3⟩ := hex
        refine ih (size - size / 2) (by omega) (base + size / 2) (by omega) (by omega) ?_
        by_cases hjmid : base + size / 2 ≤ (j : Nat)
        · exact ⟨j, hjmid, by omega, hj3⟩
        · refine ⟨⟨base + size / 2, hmid⟩,
            by show base + size / 2 ≤ base + size / 2; omega,
            by show base + size / 2 < base + size / 2 + (size - size / 2); omega, ?_⟩
          have hr := hmono j ⟨base + size / 2, hmid⟩
            (by show (j : Nat) ≤ base + size / 2; omega)
          rw [hj3] at hr
          rw [getD_of_lt s d hmid] at hc
          exact rank_eq_one (by simpa [rank] using hr) hc
    case isFalse h =>
      obtain ⟨j, hj1, hj2, hj3⟩ := hex
      have hbase : base < s.length := by omega
      rw [getD_of_lt s d hbase]
      have : j = ⟨base, hbase⟩ := Fin.ext (by show (j : Nat) = base; omega)
      rw [← this]
      exact hj3

/-- Soundness of `binarySearchBy`: a returned index is in bounds and its
element answers `eq`. -/
theorem binarySearchBy_some {α : Type} {f : α → Ordering} {s : List α} {d : α} {i : Nat}
    (h : binarySearchBy f s d = some i) :
    ∃ hi : i < s.length, f (s.get ⟨i, hi⟩) = .eq := by
  unfold binarySearchBy at h
  split at h
  · exact absurd h (by simp)
  case isFalse hlen =>
    split at h
    case isTrue heq =>
      obtain ⟨h1, h2⟩ := binarySearchLoop_bounds f s d s.length 0 (by omega)
      have hi : i < s.length := by
        have := Option.some.inj h
        omega
      refine ⟨hi, ?_⟩
      have := Option.some.inj h
      subst this
      rwa [getD_of_lt s d (by omega)] at heq
    · exact absurd h (by simp)

/-- Completeness of `binarySearchBy` for a monotone comparator: if some
element answers `eq`, the search succeeds. -/
theorem binarySearchBy_isSome {α : Type} {f : α → Ordering} {s : List α} (d : α)
    (hmono : CmpMonotone f s) (hex : ∃ j : Fin s.length, f (s.get j) = .eq) :
    ∃ i, binarySearchBy f s d = some i := by
  obtain ⟨j, hj⟩ := hex
  have hj' := j.isLt
  have hlen : ¬ s.length = 0 := by omega
  have hfind := binarySearchLoop_finds f s d hmono s.length 0 (by omega) (by omega)
    ⟨j, by omega, by omega, hj⟩
  unfold binarySearchBy
  rw [if_neg hlen, if_pos hfind]
  exact ⟨_, rfl⟩

/-! ## The comparator of `Track::active` -/

theorem cutCmp_gt_iff {T A : Type} [LinearOrder T] {t : T} {c : Cut T A} :
    cutCmp t c = .gt ↔ t < c.start_t := by
  unfold cutCmp
  cases h1 : pcmp c.start_t t with
  | lt =>
    have h := pcmp_lt_iff.mp h1
    cases h2 : pcmp t c.stop_t <;> simp [asymm h]
  | eq =>
    have h := pcmp_eq_iff.mp h1
    simp [h]
  | gt =>
    have h := pcmp_gt_iff.mp h1
    simp [h]

theorem cutCmp_lt_iff {T A : Type} [LinearOrder T] {t : T} {c : Cut T A} :
    cutCmp t c = .lt ↔ c.start_t < t ∧ c.stop_t < t := by
  unfold cutCmp
  cases h1 : pcmp c.start_t t with
  | lt =>
    have h := pcmp_lt_iff.mp h1
    cases h2 : pcmp t c.stop_t with
    | lt => simp [h, asymm (pcmp_lt_iff.mp h2)]
    | eq => simp [h, le_of_eq (pcmp_eq_iff.mp h2)]
    | gt => simp [h, pcmp_gt_iff.mp h2]
  | eq =>
    have h := pcmp_eq_iff.mp h1
    simp [h]
  | gt =>
    have h := pcmp_gt_iff.mp h1
    simp [asymm h]

theorem cutCmp_eq_iff {T A : Type} [LinearOrder T] {t : T} {c : Cut T A} :
    cutCmp t c = .eq ↔ (c.start_t = t ∨ (c.start_t < t ∧ t ≤ c.stop_t)) := by
  unfold cutCmp
  cases h1 : pcmp c.start_t t with
  | lt =>
    have h := pcmp_lt_iff.mp h1
    cases h2 : pcmp t c.stop_t with
    | lt => simp [h, le_of_lt (pcmp_lt_iff.mp h2)]
    | eq => simp [h, le_of_eq (pcmp_eq_iff.mp h2)]
    | gt => simp [h, ne_of_lt h, not_le.mpr (pcmp_gt_iff.mp h2)]
  | eq =>
    have h := pcmp_eq_iff.mp h1
    simp [h]
  | gt =>
    have h := pcmp_gt_iff.mp h1
    simp [ne_of_gt h, asymm h]

/-- With a well-formed cut (`start_t ≤ stop_t`), the comparator answers `eq`
exactly on the inclusive interval `[start_t, stop_t]`. -/
theorem cutCmp_eq_iff_contains {T A : Type} [LinearOrder T] {t : T} {c : Cut T A}
    (hwf : c.start_t ≤ c.stop_t) :
    cutCmp t c = .eq ↔ Contains c t := by
  rw [cutCmp_eq_iff]
  unfold Contains
  constructor
  · rintro (h | ⟨h1, h2⟩)
    · exact ⟨le_of_eq h, h ▸ hwf⟩
    · exact ⟨le_of_lt h1, h2⟩
  · rintro ⟨h1, h2⟩
    rcases eq_or_lt_of_le h1 with h | h
    · exact Or.inl h
    · exact Or.inr ⟨h, h2⟩

/-! ## The track invariant established by `Track::new` -/

/-- The invariant of a track's cut list: sorted by start time, and each
cut stops no later than the next one starts. -/
def Sep {T A : Type} [LinearOrder T] (cuts : List (Cut T A)) : Prop :=
  cuts.Pairwise (fun a b => a.start_t ≤ b.start_t) ∧
  cuts.Chain' (fun a b => a.stop_t ≤ b.start_t)

theorem sep_stop_le_start {T A : Type} [LinearOrder T] {cuts : List (Cut T A)} (hsep : Sep cuts)
    {i j : Fin cuts.length} (hij : (i : Nat) < (j : Nat)) :
    (cuts.get i).stop_t ≤ (cuts.get j).start_t := by
  obtain ⟨hpair, hchain⟩ := hsep
  have hi1 : (i : Nat) < cuts.length - 1 := by have := j.isLt; omega
  have hstep := List.chain'_iff_get.mp hchain (i : Nat) hi1
  rcases eq_or_lt_of_le (show (i : Nat) + 1 ≤ (j : Nat) from hij) with h | h
  · have hj : (⟨(i : Nat) + 1, by omega⟩ : Fin cuts.length) = j := Fin.ext h
    rw [← hj]
    exact hstep
  · have hp := List.pairwise_iff_get.mp hpair ⟨(i : Nat) + 1, by omega⟩ j h
    exact le_trans hstep hp

/-- Along a separated cut list, `cutCmp` is monotone, which is what the
binary search needs. -/
theorem sep_cmpMonotone {T A : Type} [LinearOrder T] {cuts : List (Cut T A)}
    (hsep : Sep cuts) (t : T) :
    CmpMonotone (cutCmp t) cuts := by
  intro i j hij
  rcases eq_or_lt_of_le hij with heq | hlt
  · rw [Fin.ext heq]
  · cases hci : cutCmp t (cuts.get i) with
    | lt => simp [rank]
    | eq =>
      have hj : cutCmp t (cuts.get j) ≠ .lt := by
        intro hcj
        obtain ⟨hj1, hj2⟩ := cutCmp_lt_iff.mp hcj
        rcases cutCmp_eq_iff.mp hci with h | ⟨h1, h2⟩
        · have := List.pairwise_iff_get.mp hsep.1 i j hlt
          rw [h] at this
          exact absurd (lt_of_le_of_lt this hj1) (lt_irrefl t)
        · have := sep_stop_le_start hsep hlt
          exact absurd (lt_of_le_of_lt (le_trans h2 this) hj1) (lt_irrefl t)
      cases hcj : cutCmp t (cuts.get j) <;> simp_all [rank]
    | gt =>
      have hpair := List.pairwise_iff_get.mp hsep.1 i j hlt
      have hgt := cutCmp_gt_iff.mp hci
      have hcj : cutCmp t (cuts.get j) = .gt := cutCmp_gt_iff.mpr (lt_of_lt_of_le hgt hpair)
      rw [List.get_eq_getElem] at hcj
      simp [hcj, rank]

theorem startLE_iff {T A : Type} [LinearOrder T] {a b : Cut T A} :
    startLE a b = true ↔ a.start_t ≤ b.start_t := by
  simp [startLE, pcmp_gt_iff, not_lt]

theorem startLE_trans {T A : Type} [LinearOrder T] (a b c : Cut T A)
    (hab : startLE a b) (hbc : startLE b c) : startLE a c :=
  startLE_iff.mpr (le_trans (startLE_iff.mp hab) (startLE_iff.mp hbc))

theorem startLE_total {T A : Type} [LinearOrder T] (a b : Cut T A) :
    startLE a b || startLE b a := by
  rcases le_total a.start_t b.start_t with h | h
  · simp [startLE_iff.mpr h]
  · simp [startLE_iff.mpr h]

theorem sortByStart_pairwise {T A : Type} [LinearOrder T] (cuts : List (Cut T A)) :
    (sortByStart cuts).Pairwise (fun a b => a.start_t ≤ b.start_t) := by
  have h := List.sorted_mergeSort startLE_trans startLE_total cuts
  exact h.imp fun hab => startLE_iff.mp hab

theorem sortByStart_perm {T A : Type} [LinearOrder T] (cuts : List (Cut T A)) :
    (sortByStart cuts).Perm cuts :=
  List.mergeSort_perm cuts startLE

/-- If the input is already sorted by start time, the stable sort leaves it
unchanged. -/
theorem sortByStart_of_sorted {T A : Type} [LinearOrder T] {cuts : List (Cut T A)}
    (hs : cuts.Pairwise fun a b => a.start_t ≤ b.start_t) :
    sortByStart cuts = cuts :=
  List.mergeSort_of_sorted (hs.imp fun hab => startLE_iff.mpr hab)

/-- The overlap test fails exactly when each adjacent pair is separated. -/
theorem overlapping_eq_false_iff {T A : Type} [LinearOrder T] (cuts : List (Cut T A)) :
    overlapping cuts = false ↔ cuts.Chain' (fun a b => a.stop_t ≤ b.start_t) := by
  induction cuts with
  | nil => simp [overlapping]
  | cons a l ih =>
    cases l with
    | nil => simp [overlapping]
    | cons b l2 =>
      rw [show overlapping (a :: b :: l2) =
        ((decide (b.start_t < a.stop_t)) || overlapping (b :: l2)) from rfl]
      rw [List.chain'_cons]
      simp [ih, not_lt, and_comm]

/-- What success of `Track::new` guarantees: the stored cuts are the sorted
input and satisfy the separation invariant. -/
theorem track_new_some {T A : Type} [LinearOrder T] {cuts : List (Cut T A)} {tr : Track T A}
    (h : Track.new cuts = some tr) :
    tr.cuts = sortByStart cuts ∧ tr.cuts.Perm cuts ∧ Sep tr.cuts := by
  unfold Track.new at h
  split at h
  · exact absurd h (by simp)
  case isFalse hov =>
    have htr : tr.cuts = sortByStart cuts := by
      have := Option.some.inj h
      rw [← this]
    refine ⟨htr, htr ▸ sortByStart_perm cuts, ?_, ?_⟩
    · exact htr ▸ sortByStart_pairwise cuts
    · rw [htr]
      exact (overlapping_eq_false_iff (sortByStart cuts)).mp (by simpa using hov)

/-! ## Behaviour of `Track::active` -/

/-- Soundness of `active`: a returned cut is stored in the track and the
comparator answers `eq` on it. -/
theorem active_some {T A : Type} [LinearOrder T] {tr : Track T A} {t : T} {c : Cut T A}
    (h : tr.active t = some c) :
    ∃ i, tr.cuts.get? i = some c ∧ cutCmp t c = .eq := by
  unfold Track.active at h
  cases hcuts : tr.cuts with
  | nil => rw [hcuts] at h; simp at h
  | cons c0 rest =>
    rw [hcuts] at h
    rw [Option.bind_eq_some] at h
    obtain ⟨i, hsearch, hget⟩ := h
    obtain ⟨hi, heq⟩ := binarySearchBy_some hsearch
    refine ⟨i, hget, ?_⟩
    have hc : (c0 :: rest).get ⟨i, hi⟩ = c := by
      have := List.get?_eq_get hi
      rw [this] at hget
      exact Option.some.inj hget
    rw [← hc]
    exact heq

/-- Completeness of `active` over a separated track: it returns nothing
exactly when no stored cut makes the comparator answer `eq`. -/
theorem active_none_iff {T A : Type} [LinearOrder T] {tr : Track T A} {t : T}
    (hsep : Sep tr.cuts) :
    tr.active t = none ↔ ∀ c ∈ tr.cuts, cutCmp t c ≠ .eq := by
  unfold Track.active
  cases hcuts : tr.cuts with
  | nil => simp
  | cons c0 rest =>
    rw [hcuts] at hsep
    show ((binarySearchBy (cutCmp t) (c0 :: rest) c0).bind fun x => (c0 :: rest).get? x)
      = none ↔ _
    constructor
    · intro h c hc hceq
      obtain ⟨j, hj⟩ := List.mem_iff_get.mp hc
      have hmono := sep_cmpMonotone hsep t
      obtain ⟨i, hi⟩ := binarySearchBy_isSome c0 hmono ⟨j, by rw [hj]; exact hceq⟩
      rw [hi] at h
      obtain ⟨hilt, _⟩ := binarySearchBy_some hi
      simp at h hilt
      omega
    · intro hall
      cases hs : binarySearchBy (cutCmp t) (c0 :: rest) c0 with
      | none => rfl
      | some i =>
        obtain ⟨hilt, heq⟩ := binarySearchBy_some hs
        exact absurd heq (hall _ (List.get_mem _ i hilt))

/-- What `active` guarantees for a track built by `Track::new` from
well-formed cuts: a returned cut is stored and contains `t` (inclusively),
and nothing is returned exactly when no stored cut contains `t`. -/
theorem active_spec_aux {T A : Type} [LinearOrder T] {cuts : List (Cut T A)} {tr : Track T A}
    (hnew : Track.new cuts = some tr)
    (hwf : ∀ c ∈ cuts, c.start_t ≤ c.stop_t) (t : T) :
    (∀ c, tr.active t = some c → c ∈ tr.cuts ∧ Contains c t) ∧
    (tr.active t = none ↔ ∀ c ∈ tr.cuts, ¬ Contains c t) := by
  obtain ⟨hsort, hperm, hsep⟩ := track_new_some hnew
  have hwf' : ∀ c ∈ tr.cuts, c.start_t ≤ c.stop_t := fun c hc => hwf c (hperm.subset hc)
  constructor
  · intro c hc
    obtain ⟨i, hget, hceq⟩ := active_some hc
    have hmem : c ∈ tr.cuts := List.get?_mem hget
    exact ⟨hmem, (cutCmp_eq_iff_contains (hwf' c hmem)).mp hceq⟩
  · rw [active_none_iff hsep]
    constructor
    · intro hall c hc hcont
      exact hall c hc ((cutCmp_eq_iff_contains (hwf' c hc)).mpr hcont)
    · intro hall c hc hceq
      exact hall c hc ((cutCmp_eq_iff_contains (hwf' c hc)).mp hceq)

theorem naiveActive_isSome_iff {T A : Type} [LinearOrder T] (tr : Track T A) (t : T) :
    (naiveActive tr t).isSome ↔ ∃ c ∈ tr.cuts, Contains c t := by
  unfold naiveActive
  rw [List.find?_isSome]
  simp [Contains]

theorem active_isSome_iff {T A : Type} [LinearOrder T] {cuts : List (Cut T A)} {tr : Track T A}
    (hnew : Track.new cuts = some tr)
    (hwf : ∀ c ∈ cuts, c.start_t ≤ c.stop_t) (t : T) :
    (tr.active t).isSome ↔ ∃ c ∈ tr.cuts, Contains c t := by
  rw [Option.isSome_iff_ne_none, Ne, (active_spec_aux hnew hwf t).2]
  push_neg
  simp

/-! ## Concrete cuts and tracks used as witnesses and counterexamples -/

/-- A disabled behavior over integer time, for concrete examples. -/
def noneBehavior : Behavior ℤ ℕ := ⟨fun _ => none⟩

def exCutA : Cut ℤ ℕ := ⟨noneBehavior, 0, 1, none⟩

def exCutB : Cut ℤ ℕ := ⟨noneBehavior, 1, 2, none⟩

def exTrackA : Track ℤ ℕ := ⟨[exCutA]⟩

def exTrackAB : Track ℤ ℕ := ⟨[exCutA, exCutB]⟩

theorem exTrackA_new : Track.new [exCutA] = some exTrackA := by
  unfold Track.new
  rw [sortByStart_of_sorted (by decide)]
  rfl

theorem exTrackAB_new : Track.new [exCutA, exCutB] = some exTrackAB := by
  unfold Track.new
  rw [sortByStart_of_sorted (by decide)]
  rfl

/-- C1 (amended): for every track built by `Track::new` from well-formed
cuts and every time `t`, the binary-search lookup `active t` and the naive
linear scan agree on whether some cut matches, and any cut `active` returns
contains `t` (both bounds inclusive); whenever at most one stored cut
contains `t` — every instant except a shared boundary — the two lookups
return the same cut.  At a boundary instant where one cut's `stop_t` equals
the next cut's `start_t` both cuts match and the two lookups may return
different cuts, so the original claim's "in particular" case fails; see the
counterexample. -/
theorem active_agrees_with_naive_scan {T A : Type} [LinearOrder T]
    (cuts : List (Cut T A)) (tr : Track T A)
    (hnew : Track.new cuts = some tr)
    (hwf : ∀ c ∈ cuts, c.start_t ≤ c.stop_t) (t : T) :
    ((tr.active t).isSome = (naiveActive tr t).isSome) ∧
    (∀ c, tr.active t = some c → Contains c t) ∧
    ((∀ c1 ∈ tr.cuts, ∀ c2 ∈ tr.cuts, Contains c1 t → Contains c2 t → c1 = c2) →
      tr.active t = naiveActive tr t) := by
  have haux := active_spec_aux hnew hwf t
  refine ⟨?_, fun c hc => (haux.1 c hc).2, ?_⟩
  · have h1 := active_isSome_iff hnew hwf t
    have h2 := naiveActive_isSome_iff tr t
    have h3 := h1.trans h2.symm
    cases ha : (tr.active t).isSome <;> cases hb : (naiveActive tr t).isSome <;>
      simp_all
  · intro huniq
    cases hopt : tr.active t with
    | none =>
      have hnone := haux.2.mp hopt
      symm
      unfold naiveActive
      rw [List.find?_eq_none]
      intro c hc
      simpa [Contains] using hnone c hc
    | some c =>
      obtain ⟨hmem, hcont⟩ := haux.1 c hopt
      have hs : (naiveActive tr t).isSome := by
        rw [naiveActive_isSome_iff]
        exact ⟨c, hmem, hcont⟩
      obtain ⟨c2, hc2⟩ := Option.isSome_iff_exists.mp hs
      have hc2' := hc2
      unfold naiveActive at hc2'
      have hp := List.find?_some hc2'
      have hmem2 := List.mem_of_find?_eq_some hc2'
      have hcont2 : Contains c2 t := by simpa [Contains] using hp
      rw [hc2, huniq c hmem c2 hmem2 hcont hcont2]

/-- Witness for C1: a one-cut track built by `Track::new`, queried at
time 0, where all three conclusions apply. -/
theorem active_agrees_with_naive_scan_witness :
    (Track.new [exCutA] = some exTrackA) ∧
    (∀ c ∈ [exCutA], c.start_t ≤ c.stop_t) ∧
    (((exTrackA.active 0).isSome = (naiveActive exTrackA 0).isSome) ∧
     (∀ c, exTrackA.active 0 = some c → Contains c 0) ∧
     ((∀ c1 ∈ exTrackA.cuts, ∀ c2 ∈ exTrackA.cuts,
        Contains c1 0 → Contains c2 0 → c1 = c2) →
       exTrackA.active 0 = naiveActive exTrackA 0)) :=
  ⟨exTrackA_new, by decide,
    active_agrees_with_naive_scan [exCutA] exTrackA exTrackA_new (by decide) 0⟩

/-- C1 counterexample: the track with cuts `[0, 1]` and `[1, 2]` is valid
(well-formed, non-overlapping), yet at the boundary instant `t = 1` the
binary search of `active` returns the cut starting at 1 while the naive
linear scan returns the cut starting at 0 — the two lookups disagree
exactly in the boundary case the claim singles out. -/
theorem active_disagrees_with_naive_scan_at_boundary :
    (Track.new [exCutA, exCutB] = some exTrackAB) ∧
    (∀ c ∈ [exCutA, exCutB], c.start_t ≤ c.stop_t) ∧
    ((exTrackAB.active 1).map fun c => c.start_t) = some 1 ∧
    ((naiveActive exTrackAB 1).map fun c => c.start_t) = some 0 ∧
    exTrackAB.active 1 ≠ naiveActive exTrackAB 1 := by
  have h1 : ((exTrackAB.active 1).map fun c => c.start_t) = some 1 := by
    simp [Track.active, binarySearchBy, binarySearchLoop, cutCmp, pcmp,
      exTrackAB, exCutA, exCutB]
  have h2 : ((naiveActive exTrackAB 1).map fun c => c.start_t) = some 0 := by
    simp [naiveActive, List.find?, exTrackAB, exCutA, exCutB]
  refine ⟨exTrackAB_new, by decide, h1, h2, fun h => ?_⟩
  rw [h] at h1
  exact absurd (h1.symm.trans h2) (by decide)

/-- C5: for every track built by `Track::new` from well-formed cuts and
every time `t`, `active t` returns only a cut whose interval contains `t`
with both bounds inclusive, and returns nothing exactly when `t` lies in no
stored cut's interval. -/
theorem active_returns_containing_cut {T A : Type} [LinearOrder T]
    (cuts : List (Cut T A)) (tr : Track T A)
    (hnew : Track.new cuts = some tr)
    (hwf : ∀ c ∈ cuts, c.start_t ≤ c.stop_t) (t : T) :
    (∀ c, tr.active t = some c → Contains c t) ∧
    (tr.active t = none ↔ ∀ c ∈ tr.cuts, ¬ Contains c t) := by
  have haux := active_spec_aux hnew hwf t
  exact ⟨fun c hc => (haux.1 c hc).2, haux.2⟩

/-- Witness for C5: the two-cut track queried at the in-range time 2 and
nothing-matches time 5. -/
theorem active_returns_containing_cut_witness :
    (Track.new [exCutA, exCutB] = some exTrackAB) ∧
    (∀ c ∈ [exCutA, exCutB], c.start_t ≤ c.stop_t) ∧
    ((∀ c, exTrackAB.active 5 = some c → Contains c 5) ∧
     (exTrackAB.active 5 = none ↔ ∀ c ∈ exTrackAB.cuts, ¬ Contains c 5)) :=
  ⟨exTrackAB_new, by decide,
    active_returns_containing_cut [exCutA, exCutB] exTrackAB exTrackAB_new (by decide) 5⟩

/-! ## Failure of `Track::new` on overlapping cuts -/

/-- Symmetric half-open overlap of two cuts: each starts strictly before
the other stops. -/
def Overlaps {T A : Type} [LinearOrder T] (a b : Cut T A) : Prop :=
  a.start_t < b.stop_t ∧ b.start_t < a.stop_t

instance {T A : Type} [LinearOrder T] (a b : Cut T A) : Decidable (Overlaps a b) := by
  unfold Overlaps; infer_instance

/-- A separated list is pairwise non-overlapping (in the symmetric sense),
not just adjacently. -/
theorem sep_pairwise_noOverlap {T A : Type} [LinearOrder T] {cuts : List (Cut T A)}
    (hsep : Sep cuts) :
    cuts.Pairwise fun a b => a.stop_t ≤ b.start_t ∨ b.stop_t ≤ a.start_t := by
  rw [List.pairwise_iff_get]
  intro i j hij
  exact Or.inl (sep_stop_le_start hsep hij)

def exCutZ : Cut ℤ ℕ := ⟨noneBehavior, 0, 0, none⟩

def exCutW : Cut ℤ ℕ := ⟨noneBehavior, 0, 5, none⟩

def exCutC : Cut ℤ ℕ := ⟨noneBehavior, 0, 2, none⟩

def exCutD : Cut ℤ ℕ := ⟨noneBehavior, 1, 3, none⟩

/-- C3 (amended): `Track::new` fails exactly when, after sorting by start
time, some adjacent pair overlaps (the later cut starts strictly before the
earlier stops); and whenever two cuts at distinct positions of the input
overlap symmetrically — each starting strictly before the other stops — the
construction fails regardless of the order in which the cuts were supplied.
The original claim's one-sided overlap condition additionally covers a
degenerate tie case (equal starts with a zero-length cut) in which failure
does depend on input order; see the counterexample. -/
theorem track_new_fails_iff_overlap {T A : Type} [LinearOrder T] (cuts : List (Cut T A)) :
    (Track.new cuts = none ↔
      ¬ (sortByStart cuts).Chain' fun a b => a.stop_t ≤ b.start_t) ∧
    (∀ i j : Fin cuts.length, (i : Nat) ≠ (j : Nat) →
      Overlaps (cuts.get i) (cuts.get j) → Track.new cuts = none) := by
  have hiff := overlapping_eq_false_iff (sortByStart cuts)
  constructor
  · unfold Track.new
    by_cases hov : overlapping (sortByStart cuts)
    · rw [if_pos hov]
      rw [hov] at hiff
      simp only [Bool.true_eq_false, false_iff] at hiff
      simp [hiff]
    · rw [if_neg hov]
      rw [Bool.not_eq_true] at hov
      rw [hov] at hiff
      simp only [true_iff] at hiff
      simp [hiff]
  · intro i j hij hovl
    cases htr : Track.new cuts with
    | none => rfl
    | some tr =>
      exfalso
      obtain ⟨hsort, hperm, hsep⟩ := track_new_some htr
      have hpno := (hperm.pairwise_iff (fun h => h.symm)).mp (sep_pairwise_noOverlap hsep)
      rcases lt_or_gt_of_ne hij with hlt | hgt
      · rcases List.pairwise_iff_get.mp hpno i j hlt with h | h
        · exact absurd (lt_of_lt_of_le hovl.2 h) (lt_irrefl _)
        · exact absurd (lt_of_lt_of_le hovl.1 h) (lt_irrefl _)
      · rcases List.pairwise_iff_get.mp hpno j i hgt with h | h
        · exact absurd (lt_of_lt_of_le hovl.1 h) (lt_irrefl _)
        · exact absurd (lt_of_lt_of_le hovl.2 h) (lt_irrefl _)

/-- Witness for C3: the genuinely overlapping cuts `[0,2]` and `[1,3]` make
`Track::new` fail. -/
theorem track_new_fails_iff_overlap_witness :
    ((0 : Nat) ≠ (1 : Nat)) ∧ Overlaps exCutC exCutD ∧
    Track.new [exCutC, exCutD] = none :=
  ⟨by decide, by decide,
    (track_new_fails_iff_overlap [exCutC, exCutD]).2
      ⟨0, by decide⟩ ⟨1, by decide⟩ (by decide) (by decide)⟩

/-- C3 counterexample: the well-formed cuts `[0,5]` and `[0,0]` satisfy the
claim's sorted-order overlap condition under the labeling with `[0,5]`
first (equal start times, and the later-labeled cut's start 0 is strictly
below the earlier-labeled cut's stop 5), and indeed the input order
`[[0,5], [0,0]]` is rejected; but the input order `[[0,0], [0,5]]` is
accepted, so construction does not fail "regardless of the order in which
the cuts were supplied". -/
theorem track_new_tie_order_dependent :
    (exCutZ.start_t ≤ exCutZ.stop_t ∧ exCutW.start_t ≤ exCutW.stop_t) ∧
    (exCutW.start_t ≤ exCutZ.start_t ∧ exCutZ.start_t < exCutW.stop_t) ∧
    Track.new [exCutW, exCutZ] = none ∧
    (Track.new [exCutZ, exCutW]).isSome = true := by
  refine ⟨by decide, by decide, ?_, ?_⟩
  · unfold Track.new
    rw [sortByStart_of_sorted (by decide)]
    rfl
  · unfold Track.new
    rw [sortByStart_of_sorted (by decide)]
    rfl

/-! ## `Cut::react_blend` and `Cut::new` -/

/-- C2: `react_blend value b t` follows the three-case rule: with no
accumulated value it is `b.react t`; with a value and no blend on `b` the
value passes through unchanged; with a value and a blend on `b` the two are
blended when `b.react t` produces a value and the accumulated value passes
through unchanged when it does not. -/
theorem react_blend_cases {T A : Type} (b : Cut T A) (t : T) :
    (Cut.react_blend none b t = b.react t) ∧
    (∀ a : A, b.blending = none → Cut.react_blend (some a) b t = some a) ∧
    (∀ (a : A) (bl : Blend A), b.blending = some bl →
      (∀ v, b.react t = some v →
        Cut.react_blend (some a) b t = some (bl.blend a v)) ∧
      (b.react t = none → Cut.react_blend (some a) b t = some a)) := by
  refine ⟨rfl, ?_, ?_⟩
  · intro a hb
    unfold Cut.react_blend
    rw [hb]
  · intro a bl hb
    constructor
    · intro v hv
      unfold Cut.react_blend
      rw [hb, hv]
    · intro hv
      unfold Cut.react_blend
      rw [hb, hv]

/-- A constant behavior over integer time. -/
def constBeh (x : ℤ) : Behavior ℤ ℤ := ⟨fun _ => some x⟩

/-- A disabled integer behavior. -/
def offBeh : Behavior ℤ ℤ := ⟨fun _ => none⟩

/-- The summing blend. -/
def sumBlend : Blend ℤ := ⟨fun a b => a + b⟩

def plainCut : Cut ℤ ℤ := ⟨constBeh 7, 0, 10, none⟩

def blendCut : Cut ℤ ℤ := ⟨constBeh 5, 3, 10, some sumBlend⟩

def offBlendCut : Cut ℤ ℤ := ⟨offBeh, 3, 10, some sumBlend⟩

/-- Witness for C2: all three cases of `react_blend` at concrete cuts. -/
theorem react_blend_cases_witness :
    (Cut.react_blend none plainCut 4 = plainCut.react 4) ∧
    (plainCut.blending = none ∧ Cut.react_blend (some 3) plainCut 4 = some 3) ∧
    (blendCut.blending = some sumBlend ∧ blendCut.react 4 = some 5 ∧
      Cut.react_blend (some 3) blendCut 4 = some (sumBlend.blend 3 5)) ∧
    (offBlendCut.blending = some sumBlend ∧ offBlendCut.react 4 = none ∧
      Cut.react_blend (some 3) offBlendCut 4 = some 3) :=
  ⟨(react_blend_cases plainCut 4).1,
    ⟨rfl, (react_blend_cases plainCut 4).2.1 3 rfl⟩,
    ⟨rfl, rfl, ((react_blend_cases blendCut 4).2.2 3 sumBlend rfl).1 5 rfl⟩,
    ⟨rfl, rfl, ((react_blend_cases offBlendCut 4).2.2 3 sumBlend rfl).2 rfl⟩⟩

/-- C8: `Cut::new` succeeds exactly when `start_t ≤ stop_t`; on success the
returned cut carries the given bounds, no blend, and duration
`stop_t - start_t`; when `start_t > stop_t` the construction returns
nothing. -/
theorem cut_new_spec {T A : Type} [LinearOrder T] [Sub T]
    (start_t stop_t : T) (behavior : Behavior T A) :
    (start_t ≤ stop_t ↔ (Cut.new start_t stop_t behavior).isSome) ∧
    (∀ c, Cut.new start_t stop_t behavior = some c →
      c.blending = none ∧ c.start_t = start_t ∧ c.stop_t = stop_t ∧
      c.dur = stop_t - start_t) ∧
    (stop_t < start_t → Cut.new start_t stop_t behavior = none) := by
  unfold Cut.new
  by_cases h : start_t ≤ stop_t
  · rw [if_pos h]
    refine ⟨by simp [h], ?_, fun hlt => absurd h (not_le.mpr hlt)⟩
    intro c hc
    cases Option.some.inj hc
    exact ⟨rfl, rfl, rfl, rfl⟩
  · rw [if_neg h]
    exact ⟨by simp [h], by simp, fun _ => rfl⟩

/-- Witness for C8: a valid and an inverted pair of bounds. -/
theorem cut_new_spec_witness :
    (Cut.new (0 : ℤ) 1 noneBehavior = some ⟨noneBehavior, 0, 1, none⟩) ∧
    ((⟨noneBehavior, 0, 1, none⟩ : Cut ℤ ℕ).blending = none ∧
      (⟨noneBehavior, 0, 1, none⟩ : Cut ℤ ℕ).start_t = 0 ∧
      (⟨noneBehavior, 0, 1, none⟩ : Cut ℤ ℕ).stop_t = 1 ∧
      (⟨noneBehavior, 0, 1, none⟩ : Cut ℤ ℕ).dur = 1 - 0) ∧
    ((1 : ℤ) < 3 ∧ Cut.new (3 : ℤ) 1 noneBehavior = none) :=
  ⟨rfl, (cut_new_spec 0 1 noneBehavior).2.1 _ rfl,
    ⟨by decide, (cut_new_spec 3 1 noneBehavior).2.2 (by decide)⟩⟩

/-! ## Time generators and the scheduler -/

/-- The `TimeGenerator` trait (`src/lib.rs`, `src/time.rs`), modelled as a
record of pure state transitions on a generator state `S`.  `tick` and
`untick` return the value the Rust method returns paired with the updated
state. -/
structure TimeGen (S T : Type) where
  current : S → T
  tick : S → T × S
  untick : S → T × S
  reset : S → S
  set : S → T → S
  change_delta : S → T → S

/-- Rust `SimpleF32TimeGenerator` (`src/time/simple.rs`).  The `f32` time domain
is a parameter `T` with addition and subtraction; the claims about this
generator concern which value is returned and how `current` is updated, not
floating-point rounding. -/
structure SimpleF32TimeGenerator (T : Type) where
  current : T
  reset_value : T
  delta : T

/-- Rust `SimpleF32TimeGenerator::new`. -/
def SimpleF32TimeGenerator.new {T : Type} (reset_value delta : T) :
    SimpleF32TimeGenerator T :=
  ⟨reset_value, reset_value, delta⟩

/-- Rust `tick`: return the old `current`, then advance it by `delta`. -/
def SimpleF32TimeGenerator.tick {T : Type} [Add T] (g : SimpleF32TimeGenerator T) :
    T × SimpleF32TimeGenerator T :=
  (g.current, { g with current := g.current + g.delta })

/-- Rust `untick`: return the old `current`, then decrease it by `delta`. -/
def SimpleF32TimeGenerator.untick {T : Type} [Sub T] (g : SimpleF32TimeGenerator T) :
    T × SimpleF32TimeGenerator T :=
  (g.current, { g with current := g.current - g.delta })

/-- Rust `set`: overwrite `current`. -/
def SimpleF32TimeGenerator.set {T : Type} (g : SimpleF32TimeGenerator T) (value : T) :
    SimpleF32TimeGenerator T :=
  { g with current := value }

/-- Rust `reset`: `set(reset_value)`. -/
def SimpleF32TimeGenerator.reset {T : Type} (g : SimpleF32TimeGenerator T) :
    SimpleF32TimeGenerator T :=
  g.set g.reset_value

/-- Rust `change_delta`: replace `delta`. -/
def SimpleF32TimeGenerator.change_delta {T : Type} (g : SimpleF32TimeGenerator T)
    (delta : T) : SimpleF32TimeGenerator T :=
  { g with delta := delta }

/-- The `TimeGenerator` impl for the simple generator. -/
def simpleTimeGen (T : Type) [Add T] [Sub T] : TimeGen (SimpleF32TimeGenerator T) T :=
  ⟨SimpleF32TimeGenerator.current, SimpleF32TimeGenerator.tick,
    SimpleF32TimeGenerator.untick, SimpleF32TimeGenerator.reset,
    SimpleF32TimeGenerator.set, SimpleF32TimeGenerator.change_delta⟩

/-- Rust `Scheduler` (`src/lib.rs`): a list of tracks plus an owned generator
state. -/
structure Scheduler (S T A : Type) where
  tracks : List (Track T A)
  time_generator : S

/-- Rust `Scheduler::active_cuts`: each track's active cut at `t` in track
order, keeping only present results
(`tracks.iter().map(|tr| tr.active(t)).flatten()`). -/
def Scheduler.active_cuts {S T A : Type} [LinearOrder T] (s : Scheduler S T A) (t : T) :
    List (Cut T A) :=
  s.tracks.filterMap fun tr => tr.active t

/-- Rust `Scheduler::value_at`: seed with the first active cut's reaction and
fold the remaining active cuts through `react_blend`
(`cuts.next().and_then(|first| cuts.fold(first.react(t), ...))`). -/
def Scheduler.value_at {S T A : Type} [LinearOrder T] (s : Scheduler S T A) (t : T) :
    Option A :=
  match s.active_cuts t with
  | [] => none
  | first :: rest =>
    rest.foldl (fun value cut => Cut.react_blend value cut t) (first.react t)

/-- Rust `Scheduler::next_value`: tick the generator, evaluate `value_at` at the
time `tick` returned.  The mutation of `self` is modelled by also returning
the updated scheduler. -/
def Scheduler.next_value {S T A : Type} [LinearOrder T] (G : TimeGen S T)
    (s : Scheduler S T A) : Option A × Scheduler S T A :=
  match G.tick s.time_generator with
  | (t, g2) => (s.value_at t, { s with time_generator := g2 })

/-- Rust `Scheduler::prev_value`: symmetric, via `untick`. -/
def Scheduler.prev_value {S T A : Type} [LinearOrder T] (G : TimeGen S T)
    (s : Scheduler S T A) : Option A × Scheduler S T A :=
  match G.untick s.time_generator with
  | (t, g2) => (s.value_at t, { s with time_generator := g2 })

/-- Rust `impl Iterator for Scheduler`: `next()` is `self.next_value()`. -/
def Scheduler.next {S T A : Type} [LinearOrder T] (G : TimeGen S T)
    (s : Scheduler S T A) : Option A × Scheduler S T A :=
  s.next_value G

/-- C7: `tick` returns the value `current` held before the call and leaves
`current` at that value plus `delta`; `untick` returns the old `current`
and leaves it at the old value minus `delta`; neither changes
`reset_value` or `delta`. -/
theorem simple_tick_untick_spec {T : Type} [Add T] [Sub T] (g : SimpleF32TimeGenerator T) :
    (g.tick.1 = g.current ∧ g.tick.2.current = g.current + g.delta ∧
      g.tick.2.reset_value = g.reset_value ∧ g.tick.2.delta = g.delta) ∧
    (g.untick.1 = g.current ∧ g.untick.2.current = g.current - g.delta ∧
      g.untick.2.reset_value = g.reset_value ∧ g.untick.2.delta = g.delta) :=
  ⟨⟨rfl, rfl, rfl, rfl⟩, ⟨rfl, rfl, rfl, rfl⟩⟩

/-- C6: `next_value` advances the generator via `tick` and evaluates
`value_at` at the time `tick` returned (the pre-advance time), leaving the
tracks unchanged; `prev_value` is symmetric via `untick`; consequently, for
the simple generator, the first `next_value` after a `reset` evaluates at
`reset_value`. -/
theorem next_prev_value_spec {S T A : Type} [LinearOrder T] (G : TimeGen S T)
    (s : Scheduler S T A) :
    ((s.next_value G).1 = s.value_at (G.tick s.time_generator).1 ∧
      (s.next_value G).2.time_generator = (G.tick s.time_generator).2 ∧
      (s.next_value G).2.tracks = s.tracks) ∧
    ((s.prev_value G).1 = s.value_at (G.untick s.time_generator).1 ∧
      (s.prev_value G).2.time_generator = (G.untick s.time_generator).2 ∧
      (s.prev_value G).2.tracks = s.tracks) ∧
    (∀ (U : Type) [LinearOrder U] [Add U] [Sub U] (B : Type)
      (s2 : Scheduler (SimpleF32TimeGenerator U) U B),
      (Scheduler.next_value (simpleTimeGen U)
          { s2 with time_generator := s2.time_generator.reset }).1
        = s2.value_at s2.time_generator.reset_value) :=
  ⟨⟨rfl, rfl, rfl⟩, ⟨rfl, rfl, rfl⟩, fun _ _ _ _ _ _ => rfl⟩

/-! ## Multi-track blending through `value_at` -/

theorem binarySearchLoop_one {α : Type} (f : α → Ordering) (s : List α) (d : α)
    (base : Nat) : binarySearchLoop f s d base 1 = base := by
  rw [binarySearchLoop]
  simp

/-- Rust `active` on a one-cut track tests that single cut with the
comparator. -/
theorem active_singleton {T A : Type} [LinearOrder T] (c : Cut T A) (t : T) :
    Track.active ⟨[c]⟩ t = if cutCmp t c = .eq then some c else none := by
  show (binarySearchBy (cutCmp t) [c] c).bind (fun x => ([c] : List (Cut T A)).get? x) = _
  unfold binarySearchBy
  simp only [List.length_singleton]
  rw [binarySearchLoop_one]
  by_cases h : cutCmp t c = .eq
  · simp [List.getD, h]
  · simp [List.getD, h]

/-- The two-track scheduler of the claim: track 1 holds `[0, 10]` with no
blend producing `x`; track 2 holds `[3, 10]` whose behavior produces `y`
and which carries the summing blend.  The generator state is irrelevant to
`value_at` and is taken to be `Unit`. -/
def twoTrackSched (x y : ℤ) : Scheduler Unit ℤ ℤ :=
  ⟨[⟨[⟨constBeh x, 0, 10, none⟩]⟩, ⟨[⟨constBeh y, 3, 10, some sumBlend⟩]⟩], ()⟩

/-- C4 (amended): in the two-track scheduler, for every `t` with
`3 ≤ t < 10` both cuts are active and `value_at t` returns `x + y` — the
blend carried by track 2's cut fires and sums the two values, rather than
returning `x` unchanged.  (`value_at` would return `x` unchanged only if
track 2's behavior were disabled at `t`.) -/
theorem value_at_blends_overlap (x y t : ℤ) (h3 : 3 ≤ t) (h10 : t < 10) :
    (twoTrackSched x y).value_at t = some (x + y) := by
  have hc1 : cutCmp t (⟨constBeh x, 0, 10, none⟩ : Cut ℤ ℤ) = .eq := by
    rw [cutCmp_eq_iff]
    right
    constructor
    · show (0 : ℤ) < t
      omega
    · show t ≤ (10 : ℤ)
      omega
  have hc2 : cutCmp t (⟨constBeh y, 3, 10, some sumBlend⟩ : Cut ℤ ℤ) = .eq := by
    rw [cutCmp_eq_iff]
    rcases eq_or_lt_of_le h3 with h | h
    · left
      show (3 : ℤ) = t
      exact h
    · right
      refine ⟨h, ?_⟩
      show t ≤ (10 : ℤ)
      omega
  unfold Scheduler.value_at Scheduler.active_cuts twoTrackSched
  rw [List.filterMap_cons, List.filterMap_cons, List.filterMap_nil]
  rw [active_singleton, active_singleton, if_pos hc1, if_pos hc2]
  simp [Cut.react, Behavior.react, Cut.react_blend, constBeh, sumBlend, Blend.blend]

/-- Witness for C4's amended statement at `x = 3`, `y = 5`, `t = 4`. -/
theorem value_at_blends_overlap_witness :
    (3 : ℤ) ≤ 4 ∧ (4 : ℤ) < 10 ∧ (twoTrackSched 3 5).value_at 4 = some (3 + 5) :=
  ⟨by decide, by decide, value_at_blends_overlap 3 5 4 (by decide) (by decide)⟩

/-- C4 counterexample: with `x = 3` and track 2's behavior producing 5,
`value_at 4` is `some 8`, not `x = 3` unchanged as the claim states. -/
theorem value_at_does_not_keep_x_unchanged :
    (twoTrackSched 3 5).value_at 4 = some 8 ∧
    (twoTrackSched 3 5).value_at 4 ≠ some 3 := by
  have h : (twoTrackSched 3 5).value_at 4 = some 8 := by
    unfold Scheduler.value_at Scheduler.active_cuts twoTrackSched
    rw [List.filterMap_cons, List.filterMap_cons, List.filterMap_nil]
    rw [active_singleton, active_singleton]
    norm_num [cutCmp, pcmp, Cut.react, Behavior.react, Cut.react_blend, constBeh,
      sumBlend, Blend.blend]
  exact ⟨h, by rw [h]; decide⟩

/-! ## The `Iterator` implementation and gaps -/

/-- The integer-time simple generator's trait record. -/
def intGen : TimeGen (SimpleF32TimeGenerator ℤ) ℤ := simpleTimeGen ℤ

theorem binarySearchLoop_two {α : Type} (f : α → Ordering) (s : List α) (d : α)
    (base : Nat) :
    binarySearchLoop f s d base 2 =
      if f (s.getD (base + 1) d) = .gt then base else base + 1 := by
  rw [binarySearchLoop]
  norm_num
  rw [binarySearchLoop_one]

/-- Rust `active` on a two-cut track: the halving loop probes the second cut
first, then lands on whichever of the two remains. -/
theorem active_pair {T A : Type} [LinearOrder T] (c0 c1 : Cut T A) (t : T) :
    Track.active ⟨[c0, c1]⟩ t =
      if cutCmp t c1 = .gt then
        (if cutCmp t c0 = .eq then some c0 else none)
      else
        (if cutCmp t c1 = .eq then some c1 else none) := by
  show (binarySearchBy (cutCmp t) [c0, c1] c0).bind
      (fun x => ([c0, c1] : List (Cut T A)).get? x) = _
  unfold binarySearchBy
  norm_num
  rw [binarySearchLoop_two]
  by_cases h1 : cutCmp t c1 = .gt
  · by_cases h0 : cutCmp t c0 = .eq <;> simp [List.getD, h1, h0]
  · by_cases he : cutCmp t c1 = .eq <;> simp [List.getD, h1, he]

def gapCut0 : Cut ℤ ℤ := ⟨constBeh 7, 0, 1, none⟩

def gapCut1 : Cut ℤ ℤ := ⟨constBeh 7, 3, 4, none⟩

/-- One track with cuts `[0, 1]` and `[3, 4]`, both producing 7, leaving a
gap at time 2. -/
def gapTrack : Track ℤ ℤ := ⟨[gapCut0, gapCut1]⟩

/-- The gap scheduler: starts at time 0 with delta 1. -/
def gapSched : Scheduler (SimpleF32TimeGenerator ℤ) ℤ ℤ := ⟨[gapTrack], ⟨0, 0, 1⟩⟩

/-- The gap scheduler's generator state after one, two and three ticks. -/
def gapSched1 : Scheduler (SimpleF32TimeGenerator ℤ) ℤ ℤ := ⟨[gapTrack], ⟨1, 0, 1⟩⟩

def gapSched2 : Scheduler (SimpleF32TimeGenerator ℤ) ℤ ℤ := ⟨[gapTrack], ⟨2, 0, 1⟩⟩

def gapSched3 : Scheduler (SimpleF32TimeGenerator ℤ) ℤ ℤ := ⟨[gapTrack], ⟨3, 0, 1⟩⟩

/-- C10: the `Iterator` impl's `next()` is exactly `next_value()`, and on
the gap scheduler the first two steps (times 0 and 1) yield values while
the third step (time 2, inside the gap) yields `none` even though the cut
`[3, 4]` still lies ahead and `value_at 3` is a value — so an iterator
consumer that treats `none` as exhaustion stops at the first gap. -/
theorem iterator_next_stops_at_gap :
    (∀ (S T A : Type) [LinearOrder T] (G : TimeGen S T) (s : Scheduler S T A),
      Scheduler.next G s = Scheduler.next_value G s) ∧
    ((gapSched.next intGen).1 = some 7) ∧
    (((gapSched.next intGen).2.next intGen).1 = some 7) ∧
    ((((gapSched.next intGen).2.next intGen).2.next intGen).1 = none) ∧
    ((((gapSched.next intGen).2.next intGen).2.next intGen).2.value_at 3 = some 7) := by
  have ha0 : gapTrack.active 0 = some gapCut0 := by
    show Track.active ⟨[gapCut0, gapCut1]⟩ 0 = some gapCut0
    rw [active_pair]
    rw [show cutCmp (0 : ℤ) gapCut1 = .gt from by decide]
    rw [show cutCmp (0 : ℤ) gapCut0 = .eq from by decide]
    rfl
  have ha1 : gapTrack.active 1 = some gapCut0 := by
    show Track.active ⟨[gapCut0, gapCut1]⟩ 1 = some gapCut0
    rw [active_pair]
    rw [show cutCmp (1 : ℤ) gapCut1 = .gt from by decide]
    rw [show cutCmp (1 : ℤ) gapCut0 = .eq from by decide]
    rfl
  have ha2 : gapTrack.active 2 = none := by
    show Track.active ⟨[gapCut0, gapCut1]⟩ 2 = none
    rw [active_pair]
    rw [show cutCmp (2 : ℤ) gapCut1 = .gt from by decide]
    rw [show cutCmp (2 : ℤ) gapCut0 = .lt from by decide]
    rfl
  have ha3 : gapTrack.active 3 = some gapCut1 := by
    show Track.active ⟨[gapCut0, gapCut1]⟩ 3 = some gapCut1
    rw [active_pair]
    rw [show cutCmp (3 : ℤ) gapCut1 = .eq from by decide]
    rfl
  have hv0 : gapSched.value_at 0 = some 7 := by
    unfold Scheduler.value_at Scheduler.active_cuts
    simp [gapSched, ha0, gapCut0, Cut.react, Behavior.react, constBeh]
  have hv1 : gapSched1.value_at 1 = some 7 := by
    unfold Scheduler.value_at Scheduler.active_cuts
    simp [gapSched1, ha1, gapCut0, Cut.react, Behavior.react, constBeh]
  have hv2 : gapSched2.value_at 2 = none := by
    unfold Scheduler.value_at Scheduler.active_cuts
    simp [gapSched2, ha2]
  have h3 : gapSched3.value_at 3 = some 7 := by
    unfold Scheduler.value_at Scheduler.active_cuts
    simp [gapSched3, ha3, gapCut1, Cut.react, Behavior.react, constBeh]
  have h0 : gapSched.next intGen = (some 7, gapSched1) := by
    show (gapSched.value_at 0, gapSched1) = (some 7, gapSched1)
    rw [hv0]
  have h1 : gapSched1.next intGen = (some 7, gapSched2) := by
    show (gapSched1.value_at 1, gapSched2) = (some 7, gapSched2)
    rw [hv1]
  have h2 : gapSched2.next intGen = (none, gapSched3) := by
    show (gapSched2.value_at 2, gapSched3) = (none, gapSched3)
    rw [hv2]
  refine ⟨fun S T A _ G s => rfl, ?_, ?_, ?_, ?_⟩
  · rw [h0]
  · rw [h0]
    show (gapSched1.next intGen).1 = some 7
    rw [h1]
  · rw [h0]
    show ((gapSched1.next intGen).2.next intGen).1 = none
    rw [h1]
    show (gapSched2.next intGen).1 = none
    rw [h2]
  · rw [h0]
    show ((gapSched1.next intGen).2.next intGen).2.value_at 3 = some 7
    rw [h1]
    show (gapSched2.next intGen).2.value_at 3 = some 7
    rw [h2]
    exact h3

/-! ## The random-access scheduler (`src/scheduler.rs`, `src/window.rs`) -/

/-- A pure time window, inclusive start and exclusive end
(`Window` in `src/window.rs`). -/
structure Window (T : Type) where
  start : T
  «end» : T

/-- Rust `Window::new`. -/
def Window.new {T : Type} (start stop : T) : Window T := ⟨start, stop⟩

/-- An action scoped to a time window (`MappedWindow` in
`src/window.rs`).  The boxed `FnMut` action is modelled as a function whose
side effect has no observable component. -/
structure MappedWindow (T : Type) where
  window : Window T
  carry : T → Unit

/-- The interruption outcome (`Interrupt` in `src/scheduler.rs`). -/
inductive Interrupt : Type
  | Break
  | Continue
deriving DecidableEq

/-- The comparator of `active_window_index` — the same shape as `cutCmp`,
over the window's `start`/`end`. -/
def winCmp {T : Type} [LinearOrder T] (t : T) (win : MappedWindow T) : Ordering :=
  match pcmp win.window.start t with
  | .eq => .eq
  | .gt => .gt
  | .lt =>
    match pcmp t win.window.«end» with
    | .lt => .eq
    | .eq => .eq
    | .gt => .lt

/-- Rust `RandomAccessScheduler`: a generator state, the sorted windows, and an
optional interrupt predicate. -/
structure RandomAccessScheduler (S T : Type) where
  time_gen : S
  windows : List (MappedWindow T)
  interrupt : Option (T → Interrupt)

/-- Rust `RandomAccessScheduler::active_window_index`: binary search over the
windows. -/
def RandomAccessScheduler.active_window_index {S T : Type} [LinearOrder T]
    (ras : RandomAccessScheduler S T) (t : T) : Option Nat :=
  match ras.windows with
  | [] => none
  | w :: _ => binarySearchBy (winCmp t) ras.windows w

/-- Does the optional interrupt ask to break at `t`? -/
def interruptBreaks {T : Type} (intr : Option (T → Interrupt)) (t : T) : Bool :=
  match intr with
  | some f => f t = Interrupt.Break
  | none => false

/-- The body of `RandomAccessScheduler::schedule`'s `loop`, with an
explicit fuel bound: `some s` means the loop terminated (by interrupt or by
reaching the last window's end) leaving generator state `s`; `none` means
it was still running after `fuel` iterations.  Each iteration checks the
interrupt, runs the active window's `carry` action (an effect with no
observable component here), ticks the generator discarding the returned
time, re-reads the current time, and tests it against the last window's
end — a test that is skipped entirely when there are no windows. -/
def scheduleGo {S T : Type} [LinearOrder T] (G : TimeGen S T)
    (ras : RandomAccessScheduler S T) (g : S) (t : T) : Nat → Option S
  | 0 => none
  | fuel + 1 =>
    if interruptBreaks ras.interrupt t then some g
    else
      let _carried := (ras.active_window_index t).map fun ix =>
        (ras.windows.getD ix ⟨⟨t, t⟩, fun _ => ()⟩).carry t
      let g2 := (G.tick g).2
      let t2 := G.current g2
      match ras.windows.getLast? with
      | some last_win =>
        if last_win.window.«end» ≤ t2 then some g2
        else scheduleGo G ras g2 t2 fuel
      | none => scheduleGo G ras g2 t2 fuel

/-- Rust `RandomAccessScheduler::schedule`: reset the generator, read the
current time, and enter the loop. -/
def RandomAccessScheduler.schedule {S T : Type} [LinearOrder T] (G : TimeGen S T)
    (ras : RandomAccessScheduler S T) (fuel : Nat) : Option S :=
  scheduleGo G ras (G.reset ras.time_gen) (G.current (G.reset ras.time_gen)) fuel

/-- C9: with an empty windows collection and no interrupt configured, the
`schedule` run loop never terminates: for every fuel bound the loop (and
hence `schedule`) is still running, because the natural-termination test
compares the current time only against the last window's end and is
skipped entirely when there are no windows, and the interrupt check never
breaks. -/
theorem schedule_empty_windows_diverges {S T : Type} [LinearOrder T] (G : TimeGen S T)
    (ras : RandomAccessScheduler S T)
    (hw : ras.windows = []) (hi : ras.interrupt = none) :
    (∀ fuel g t, scheduleGo G ras g t fuel = none) ∧
    (∀ fuel, ras.schedule G fuel = none) := by
  have hloop : ∀ fuel g t, scheduleGo G ras g t fuel = none := by
    intro fuel
    induction fuel with
    | zero =>
      intro g t
      rfl
    | succ fuel ih =>
      intro g t
      simp [scheduleGo, interruptBreaks, hi, hw, ih]
  exact ⟨hloop, fun fuel => hloop fuel _ _⟩

def emptyRas : RandomAccessScheduler (SimpleF32TimeGenerator ℤ) ℤ := ⟨⟨0, 0, 1⟩, [], none⟩

/-- Witness for C9: a concrete empty scheduler is still running after five
iterations, whatever the fuel shown. -/
theorem schedule_empty_windows_diverges_witness :
    emptyRas.windows = [] ∧ emptyRas.interrupt = none ∧
    scheduleGo intGen emptyRas ⟨0, 0, 1⟩ 0 5 = none ∧
    emptyRas.schedule intGen 5 = none :=
  ⟨rfl, rfl, (schedule_empty_windows_diverges intGen emptyRas rfl rfl).1 5 _ _,
    (schedule_empty_windows_diverges intGen emptyRas rfl rfl).2 5⟩

end Awoo
